import Mathlib

/-!
Verification development for the BG3 wiki RAG pipeline.

Shallow embedding of the retrieval, re-ranking and context-assembly core:
  * find_matching_wiki_pages.py : search_documents (keyword retrieval)
  * gemini_bg3_rag.py : parse_reranked_results, get_content_for_answering,
    format_chat_history_snippet

Strings are modelled as Lean String (logically a list of Chars); Python
floats are modelled as rationals; the opaque external keyword extractor is
modelled as an input (an ordered list of extracted items); the JSONL index
file is modelled as a list of already-decoded records (a line either decodes
to a document or is malformed JSON).  Python exceptions raised and caught
inside search_documents are modelled with Except.
-/

/-- ASCII whitespace recognised by Python's regex class backslash-s
(space, tab, newline, carriage return, vertical tab, form feed). -/
def isPyWS (c : Char) : Bool :=
  c == ' ' || c == '\t' || c == '\n' || c == '\r' || c == '\x0b' || c == '\x0c'

/-- Python str.lower, modelled character-wise (ASCII case folding). -/
def lowerStr (s : String) : String :=
  String.mk (s.data.map Char.toLower)

/-- Word character for Python's regex word boundary backslash-b:
letters, digits or underscore. -/
def isWordChar (c : Char) : Bool :=
  c.isAlphanum || c == '_'

/-- Whether position i of the character list holds a word character
(out-of-range positions count as non-word, as at the ends of a string). -/
def wordCharAt (s : List Char) (i : Nat) : Bool :=
  match s.get? i with
  | some c => isWordChar c
  | none => false

/-- Python regex word boundary at position i of s: the word-character
status differs between the character before i and the character at i. -/
def boundaryAt (s : List Char) (i : Nat) : Bool :=
  (decide (i ≠ 0) && wordCharAt s (i - 1)) != wordCharAt s i

/-- A whole-word occurrence of the literal kw at position i of s:
the pattern backslash-b kw backslash-b of re.search matches at i. -/
def wholeWordAt (kw s : List Char) (i : Nat) : Bool :=
  List.isPrefixOf kw (s.drop i) && boundaryAt s i && boundaryAt s (i + kw.length)

/-- re.search of the whole-word pattern for the literal kw anywhere in s. -/
def hasWholeWord (kw s : List Char) : Bool :=
  (List.range (s.length + 1)).any (fun i => wholeWordAt kw s i)

/-! ## The retriever: find_matching_wiki_pages.py -/

/-- SEARCH_QUERY_BLACKLIST from find_matching_wiki_pages.py, transcribed. -/
def SEARCH_QUERY_BLACKLIST : List String :=
  ["a", "an", "the", "is", "are", "was", "were", "be", "been", "being",
   "have", "has", "had", "do", "does", "did", "will", "would", "should",
   "can", "could", "may", "might", "must", "am",
   "i", "me", "my", "myself", "we", "our", "ours", "ourselves",
   "you", "your", "yours", "yourself", "yourselves",
   "he", "him", "his", "himself", "she", "her", "hers", "herself",
   "it", "its", "itself", "they", "them", "their", "theirs", "themselves",
   "what", "which", "who", "whom", "this", "that", "these", "those",
   "to", "of", "at", "by", "for", "with", "about", "against", "between",
   "into", "through", "during", "before", "after", "above", "below",
   "from", "up", "down", "in", "out", "on", "off", "over", "under",
   "again", "further", "then", "once", "here", "there", "when", "where",
   "why", "how", "all", "any", "both", "each", "few", "more", "most",
   "other", "some", "such", "no", "nor", "not", "only", "own", "same",
   "so", "than", "too", "very", "s", "t", "just", "don", "now",
   "get", "make", "go", "see", "know", "take", "find", "tell",
   "ask", "work", "seem", "feel", "try", "leave", "call", "give",
   "let", "put", "say", "set", "look", "want", "need", "use"]

/-- MIN_USER_KEYWORD_LENGTH from find_matching_wiki_pages.py. -/
def MIN_USER_KEYWORD_LENGTH : Nat := 2

/-- One item of the list returned by the external keyword extractor.
The code only keeps items that are a tuple or list whose first element is a
string (the extracted term); anything else is a malformed item. -/
inductive QItem where
  | term (t : String)
  | malformed
deriving DecidableEq

/-- The weight slot of a per-document keyword entry: either a value that
float converts (modelled as a rational), or one on which float raises a
ValueError or TypeError. -/
inductive KwWeight where
  | val (w : ℚ)
  | notAFloat
deriving DecidableEq

/-- One entry of a document's keywords field.  The code accepts an entry
that is a two-element list whose first element is a string; any other
shape fails the isinstance test and is passed over. -/
inductive KwEntry where
  | pair (t : String) (w : KwWeight)
  | wrongShape
deriving DecidableEq

/-- A decoded record of the JSONL index: url, title, text and the keywords
list (title, url, text default to the empty string when absent, which the
model folds into the field value). -/
structure Doc where
  url : String
  title : String
  text : String
  keywords : List KwEntry
deriving DecidableEq

/-- One line of the index file: either it decodes to a document, or
json.loads raises JSONDecodeError on it. -/
inductive IndexLine where
  | doc (d : Doc)
  | badJson
deriving DecidableEq

/-- The ambient inputs of search_documents: whether the index file exists,
what the external keyword extractor returned for the query, and the decoded
lines of the index file. -/
structure SearchInput where
  fileExists : Bool
  extractedKeywords : List QItem
  lines : List IndexLine
deriving DecidableEq

/-- The filtering loop of search_documents over the extractor's items:
keep the lowercased term of each well-shaped item if it is not
blacklisted and is at least MIN_USER_KEYWORD_LENGTH characters long. -/
def processQueryKeywords : List QItem → List String
  | [] => []
  | QItem.malformed :: rest => processQueryKeywords rest
  | QItem.term t :: rest =>
    let tl := lowerStr t
    if tl ∉ SEARCH_QUERY_BLACKLIST ∧ MIN_USER_KEYWORD_LENGTH ≤ tl.length then
      tl :: processQueryKeywords rest
    else
      processQueryKeywords rest

/-- The query keyword set of search_documents.  The Python code stores the
filtered terms in a set; only membership and existential iteration are ever
used, so the list of filtered terms is an equivalent model. -/
def queryKeywordSet (inp : SearchInput) : List String :=
  processQueryKeywords inp.extractedKeywords

/-- The is_title_match loop: some filtered query term occurs as a whole
word in the lowercased title. -/
def titleMatches (qset : List String) (title : String) : Bool :=
  qset.any (fun kw => hasWholeWord kw.data (lowerStr title).data)

/-- The inner keyword loop of search_documents, carrying the
found_keyword_in_list flag and max_matching_keyword_weight accumulator.
float is applied to the weight of every well-shaped entry, so an
inconvertible weight raises (Except.error) and the exception is caught at
the granularity of the whole line. -/
def scanDocKeywords (qset : List String) :
    Bool → ℚ → List KwEntry → Except Unit (Bool × ℚ)
  | found, acc, [] => Except.ok (found, acc)
  | found, acc, KwEntry.wrongShape :: rest => scanDocKeywords qset found acc rest
  | _, _, KwEntry.pair _ KwWeight.notAFloat :: _ => Except.error ()
  | found, acc, KwEntry.pair t (KwWeight.val w) :: rest =>
    if lowerStr t ∈ qset then scanDocKeywords qset true (max acc w) rest
    else scanDocKeywords qset found acc rest

/-- Per-document scoring of search_documents: the title-match flag, the
keyword scan, and the append decision.  Returns Except.error when the
keyword scan raised (the line is then skipped with a warning), ok none when
neither match holds, and ok (priority, effectiveWeight) when the document
is kept. -/
def docScore (qset : List String) (d : Doc) : Except Unit (Option (Nat × ℚ)) :=
  let tm := titleMatches qset d.title
  match scanDocKeywords qset false 0 d.keywords with
  | Except.error _ => Except.error ()
  | Except.ok (found, maxW) =>
    if tm || found then
      Except.ok (some ((if tm then 1 else 0), if found then maxW else 0))
    else
      Except.ok none

/-- The potential_matches list accumulated by the line loop: JSON-bad lines
and lines whose processing raised are skipped; matching documents
contribute their (priority, effectiveWeight, document) triple in file
order. -/
def potentialMatches (qset : List String) : List IndexLine → List (Nat × ℚ × Doc)
  | [] => []
  | IndexLine.badJson :: rest => potentialMatches qset rest
  | IndexLine.doc d :: rest =>
    match docScore qset d with
    | Except.error _ => potentialMatches qset rest
    | Except.ok none => potentialMatches qset rest
    | Except.ok (some (p, w)) => (p, w, d) :: potentialMatches qset rest

/-- The sort order of search_documents: Python sorts ascending by the key
(-priority, -weight), i.e. descending lexicographically by
(priority, weight).  a comes no later than b iff a's priority is larger,
or priorities are equal and a's weight is at least b's. -/
def rankDescLE (a b : Nat × ℚ × Doc) : Prop :=
  b.1 < a.1 ∨ (a.1 = b.1 ∧ b.2.1 ≤ a.2.1)

instance : DecidableRel rankDescLE := fun a b => by
  unfold rankDescLE; infer_instance

instance : IsTotal (Nat × ℚ × Doc) rankDescLE :=
  ⟨by
    intro a b
    unfold rankDescLE
    rcases Nat.lt_trichotomy a.1 b.1 with h | h | h
    · exact Or.inr (Or.inl h)
    · rcases le_total b.2.1 a.2.1 with h2 | h2
      · exact Or.inl (Or.inr ⟨h, h2⟩)
      · exact Or.inr (Or.inr ⟨h.symm, h2⟩)
    · exact Or.inl (Or.inl h)⟩

instance : IsTrans (Nat × ℚ × Doc) rankDescLE :=
  ⟨by
    intro a b c hab hbc
    unfold rankDescLE at *
    rcases hab with h1 | ⟨h1, h1w⟩
    · rcases hbc with h2 | ⟨h2, _⟩
      · exact Or.inl (h2.trans h1)
      · exact Or.inl (h2 ▸ h1)
    · rcases hbc with h2 | ⟨h2, h2w⟩
      · exact Or.inl (h1 ▸ h2)
      · exact Or.inr ⟨h1.trans h2, h2w.trans h1w⟩⟩

/-- The sorted potential_matches of search_documents.  Python's sorted is a
stable sort by the key (-priority, -weight); it is modelled by insertion
sort with the total preorder rankDescLE, which computes a stable sort with
the same ordering. -/
def sortedMatches (qset : List String) (lines : List IndexLine) :
    List (Nat × ℚ × Doc) :=
  List.insertionSort rankDescLE (potentialMatches qset lines)

/-- search_documents from find_matching_wiki_pages.py.  Returns the empty
list when the index file is missing, when the extractor returned nothing,
or when no filtered keyword survives; otherwise the matching documents
sorted by descending (titleMatchPriority, effectiveWeight). -/
def search_documents (inp : SearchInput) : List Doc :=
  if inp.fileExists = false then []
  else if inp.extractedKeywords = [] then []
  else
    let qset := queryKeywordSet inp
    if qset = [] then []
    else (sortedMatches qset inp.lines).map (fun x => x.2.2)

/-! ## The re-rank response parser: parse_reranked_results -/

/-- Greedy run of Python regex whitespace: drop the maximal whitespace
prefix (whitespace includes newlines, as in the MULTILINE pattern). -/
def dropPyWS : List Char → List Char
  | [] => []
  | c :: rest => if isPyWS c then dropPyWS rest else c :: rest

/-- Case-insensitive literal match: consume the characters of pat (given
lowercased) from the front of s, comparing after ASCII lowercasing;
returns the rest of s on success. -/
def stripCI : List Char → List Char → Option (List Char)
  | [], s => some s
  | _ :: _, [] => none
  | p :: ps, c :: cs => if c.toLower = p then stripCI ps cs else none

/-- Greedy run of one-or-more non-whitespace characters: the maximal
non-whitespace prefix and the rest. -/
def takeNonWS : List Char → List Char × List Char
  | [] => ([], [])
  | c :: rest =>
    if isPyWS c then ([], c :: rest)
    else
      let r := takeNonWS rest
      (c :: r.1, r.2)

/-- The alternative branch of the scheme: after the optional s failed (or
was given back), match the literal colon-slash-slash then the url token.
s3 is the text at the start of the capture group, s4 the text after the
case-insensitive http. -/
def schemeAlt (s3 s4 : List Char) : Option (List Char × List Char) :=
  match stripCI "://".data s4 with
  | none => none
  | some s5 =>
    match takeNonWS s5 with
    | ([], _) => none
    | (run, rest) => some (s3.take 7 ++ run, rest)

/-- The capture group https?://[^ws]+ applied at s3: greedy optional s
first, with backtracking to the branch without s; the capture is the
matched text verbatim (case preserved). -/
def schemeToken (s3 : List Char) : Option (List Char × List Char) :=
  match stripCI "http".data s3 with
  | none => none
  | some s4 =>
    match stripCI "s://".data s4 with
    | some s5 =>
      match takeNonWS s5 with
      | ([], _) => schemeAlt s3 s4
      | (run, rest) => some (s3.take 8 ++ run, rest)
    | none => schemeAlt s3 s4

/-- One attempt of the pattern ws* URL : ws* (https?://token) at a
caret-anchored position: s is the suffix of the text starting there.
Returns the captured url and the text after the match.  The whitespace
runs may include newlines, exactly as backslash-s does in the source's
MULTILINE regex. -/
def matchUrlAt (s : List Char) : Option (List Char × List Char) :=
  match stripCI "url:".data (dropPyWS s) with
  | none => none
  | some s2 => schemeToken (dropPyWS s2)

/-- The findall scan of the compiled pattern over the text: try the
pattern at every line-start position, left to right, non-overlapping;
each successful match contributes its capture and the scan resumes after
the match.  fuel bounds the recursion and is set above the text length. -/
def scanForUrls : Nat → List Char → Bool → List (List Char)
  | 0, _, _ => []
  | Nat.succ fuel, s, atLineStart =>
    match s with
    | [] => []
    | c :: rest =>
      if atLineStart then
        match matchUrlAt (c :: rest) with
        | some (u, r) => u :: scanForUrls fuel r false
        | none => scanForUrls fuel rest (c == '\n')
      else
        scanForUrls fuel rest (c == '\n')

/-- Python str.strip: remove leading and trailing whitespace. -/
def stripPy (l : List Char) : List Char :=
  (dropPyWS (dropPyWS l).reverse).reverse

/-- parse_reranked_results from gemini_bg3_rag.py: findall of the pattern
caret ws* URL : ws* (https?://[^ws]+) with MULTILINE and IGNORECASE over
the response text, each captured url then stripped and appended in match
order. -/
def parse_reranked_results (gemini_response_text : String) : List String :=
  (scanForUrls (gemini_response_text.data.length + 1)
      gemini_response_text.data true).map (fun u => String.mk (stripPy u))

/-- Splitting a text into its newline-separated lines. -/
def splitNL : List Char → List (List Char)
  | [] => [[]]
  | c :: rest =>
    if c = '\n' then [] :: splitNL rest
    else
      match splitNL rest with
      | [] => [[c]]
      | l :: ls => (c :: l) :: ls

/-- Modelled from the spec's words (claim C5's reading of the parser, for
comparison with the source's behaviour): scan the response line by line
and extract the url token only from a line that itself matches the whole
pattern, optional leading whitespace, then URL and the required colon
(case-insensitive), then the url token, all inside that single line. -/
def specLineExtract (text : String) : List String :=
  (splitNL text.data).filterMap
    (fun line => (matchUrlAt line).map (fun r => String.mk (stripPy r.1)))

/-! ## The context assembler: get_content_for_answering -/

/-- MAX_PAGES_FOR_ANSWERING from gemini_bg3_rag.py. -/
def MAX_PAGES_FOR_ANSWERING : Nat := 3

/-- The inner resolution loop: the first document of all_local_pages whose
url equals the target url. -/
def findDocByUrl (pages : List Doc) (u : String) : Option Doc :=
  pages.find? (fun d => d.url == u)

/-- The labeled block appended for one resolved document: the context
header with title and url followed by the page text, or the explicit
no-text marker when the text is empty. -/
def docBlock (u : String) (d : Doc) : String :=
  if d.text ≠ "" then
    "\n\n--- Context from " ++ d.title ++ " (" ++ u ++ ") ---\n" ++ d.text
  else
    "\n\n--- No text content found for " ++ d.title ++ " (" ++ u ++ ") ---\n"

/-- The sentinel returned when the reranked url list is empty. -/
def NO_RERANKED_SENTINEL : String :=
  "No specific documents were identified as relevant by the re-ranking step for the current query."

/-- The sentinel returned when no reranked url resolved to a document. -/
def NO_CONTENT_SENTINEL : String :=
  "No content could be retrieved for the top re-ranked pages."

/-- The walk of get_content_for_answering over the capped url list,
carrying content_to_provide and pages_found. -/
def assembleLoop (pages : List Doc) : List String → String → Nat → String × Nat
  | [], acc, n => (acc, n)
  | u :: us, acc, n =>
    match findDocByUrl pages u with
    | some d => assembleLoop pages us (acc ++ docBlock u d) (n + 1)
    | none => assembleLoop pages us acc n

/-- get_content_for_answering from gemini_bg3_rag.py. -/
def get_content_for_answering (reranked_urls : List String)
    (all_local_pages : List Doc) : String :=
  if reranked_urls = [] then NO_RERANKED_SENTINEL
  else
    let r := assembleLoop all_local_pages
      (reranked_urls.take MAX_PAGES_FOR_ANSWERING) "" 0
    if r.2 = 0 then NO_CONTENT_SENTINEL else r.1

/-- The documents the assembler resolves, in walk order: the capped url
list filtered through first-match url resolution. -/
def resolvedDocs (reranked_urls : List String) (pages : List Doc) : List Doc :=
  (reranked_urls.take MAX_PAGES_FOR_ANSWERING).filterMap (findDocByUrl pages)

/-- The labeled blocks the assembler produces, in walk order. -/
def resolvedBlocks (reranked_urls : List String) (pages : List Doc) : List String :=
  (reranked_urls.take MAX_PAGES_FOR_ANSWERING).filterMap
    (fun u => (findDocByUrl pages u).map (docBlock u))

/-! ## The history snippet: format_chat_history_snippet -/

/-- One part of a chat Content object: it may or may not expose a text
attribute. -/
structure ChatPart where
  text : Option String
deriving DecidableEq

/-- One chat Content object: an optional role attribute and an optional
list of parts (absent also models a parts attribute that is not a list). -/
structure ChatContent where
  role : Option String
  parts : Option (List ChatPart)
deriving DecidableEq

/-- Python str.capitalize: first character uppercased, the rest
lowercased. -/
def capitalizePy (s : String) : String :=
  match s.data with
  | [] => ""
  | c :: rest => String.mk (c.toUpper :: rest.map Char.toLower)

/-- NUM_HISTORY_TURNS_FOR_GUIDANCE from gemini_bg3_rag.py. -/
def NUM_HISTORY_TURNS_FOR_GUIDANCE : Nat := 4

/-- Python history[-n:]: the last n elements for positive n; for n = 0 the
slice is the whole list. -/
def lastTurns (history : List ChatContent) (n : Nat) : List ChatContent :=
  if n = 0 then history else history.drop (history.length - n)

/-- The text-part collection loop: the text of every part exposing one. -/
def collectTexts : List ChatPart → List String
  | [] => []
  | p :: rest =>
    match p.text with
    | some t => t :: collectTexts rest
    | none => collectTexts rest

/-- Python str.strip on String. -/
def stripStr (s : String) : String :=
  String.mk (stripPy s.data)

/-- The line contributed by one history message: dash, capitalized role
(defaulting to unknown), colon, the joined and stripped part texts or the
explicit placeholder when no text part was collected. -/
def turnLine (m : ChatContent) : String :=
  let role := capitalizePy (match m.role with | some r => r | none => "unknown")
  let collected := match m.parts with | some ps => collectTexts ps | none => []
  let text :=
    if collected = [] then "[empty message or non-text parts]"
    else stripStr (String.intercalate " " collected)
  "- " ++ role ++ ": " ++ text ++ "\n"

/-- The fixed string returned for an empty history. -/
def NO_HISTORY_SENTINEL : String := "No prior conversation history."

/-- format_chat_history_snippet from gemini_bg3_rag.py. -/
def format_chat_history_snippet (history : List ChatContent) (num_turns : Nat) :
    String :=
  if history = [] then NO_HISTORY_SENTINEL
  else
    "Recent Conversation Snippet:\n"
      ++ String.join ((lastTurns history num_turns).map turnLine)

/-! ## Derived views of the retriever used by the statements -/

/-- Whether some keyword entry of a document has a weight on which float
raises (the first such entry aborts the document's line). -/
def hasBadWeight : List KwEntry → Bool
  | [] => false
  | KwEntry.pair _ KwWeight.notAFloat :: _ => true
  | _ :: rest => hasBadWeight rest

/-- The weights of the well-shaped keyword entries whose lowercased term
equals a filtered query term, in entry order. -/
def matchWeights (qset : List String) : List KwEntry → List ℚ
  | [] => []
  | KwEntry.pair t (KwWeight.val w) :: rest =>
    if lowerStr t ∈ qset then w :: matchWeights qset rest
    else matchWeights qset rest
  | _ :: rest => matchWeights qset rest

/-- found_keyword_in_list as a function of the document and query set. -/
def hasKwMatch (qset : List String) (kws : List KwEntry) : Bool :=
  !(matchWeights qset kws).isEmpty

/-- The (titleMatchPriorityScore, effectiveWeight) pair search_documents
records for a kept document (junk value on documents it does not keep). -/
def docRankOf (qset : List String) (d : Doc) : Nat × ℚ :=
  match docScore qset d with
  | Except.ok (some pw) => pw
  | _ => (0, 0)

/-! ## Concrete sample data used by witnesses and counterexamples -/

/-- A sample indexed document whose title contains the word goblin. -/
def goblinDoc : Doc :=
  ⟨"https://bg3.wiki/wiki/Goblin_Camp", "Goblin Camp", "The goblin camp page text.",
   [KwEntry.pair "goblin" (KwWeight.val 1)]⟩

/-- A sample indexed document about a druid grove. -/
def druidDoc : Doc :=
  ⟨"https://bg3.wiki/wiki/Druid_Grove", "Druid Grove", "The druid grove page text.",
   [KwEntry.pair "druid" (KwWeight.val 2), KwEntry.pair "grove" (KwWeight.val 1)]⟩

/-- A sample search input: the extractor returned Goblin and camp for the
query, the index file exists and holds the two sample documents. -/
def sampleInput : SearchInput :=
  ⟨true, [QItem.term "Goblin", QItem.term "camp"],
   [IndexLine.doc goblinDoc, IndexLine.doc druidDoc]⟩

/-- A document with a matching title and keyword, plus one keyword entry
whose weight float cannot convert. -/
def badWeightDoc : Doc :=
  ⟨"https://bg3.wiki/wiki/Goblin_Camp", "Goblin Camp", "The goblin camp page text.",
   [KwEntry.pair "goblin" (KwWeight.val 1), KwEntry.pair "junk" KwWeight.notAFloat]⟩

/-- A search input whose only indexed document is badWeightDoc and whose
query matches it by title and keyword. -/
def badWeightInput : SearchInput :=
  ⟨true, [QItem.term "goblin"], [IndexLine.doc badWeightDoc]⟩

/-- The same input with the inconvertible-weight entry removed. -/
def goodWeightInput : SearchInput :=
  ⟨true, [QItem.term "goblin"], [IndexLine.doc goblinDoc]⟩

/-- A sample chat history of five turns. -/
def sampleHistory : List ChatContent :=
  [⟨some "user", some [⟨some "hi"⟩]⟩,
   ⟨some "model", some [⟨some "hello"⟩]⟩,
   ⟨some "user", some [⟨some "tell me about goblins"⟩]⟩,
   ⟨some "model", some [⟨some "they live in a camp"⟩]⟩,
   ⟨some "user", some [⟨some "thanks"⟩]⟩]

/-- A search input whose query consists only of stop-words. -/
def stopWordInput : SearchInput :=
  ⟨true, [QItem.term "What", QItem.term "is", QItem.term "the"],
   [IndexLine.doc goblinDoc, IndexLine.doc druidDoc]⟩

/-- A search input for which the index file is missing. -/
def missingFileInput : SearchInput :=
  ⟨false, [QItem.term "goblin"], [IndexLine.doc goblinDoc]⟩

/-! ## Retriever lemmas -/

lemma scanDocKeywords_eq (qset : List String) :
    ∀ (kws : List KwEntry) (found : Bool) (acc : ℚ),
      scanDocKeywords qset found acc kws =
        if hasBadWeight kws then Except.error ()
        else Except.ok (found || hasKwMatch qset kws,
          List.foldl max acc (matchWeights qset kws)) := by
  intro kws
  induction kws with
  | nil =>
    intro found acc
    simp [scanDocKeywords, hasBadWeight, hasKwMatch, matchWeights, List.isEmpty]
  | cons e rest ih =>
    intro found acc
    cases e with
    | wrongShape =>
      simp only [scanDocKeywords, hasBadWeight, hasKwMatch, matchWeights]
      exact ih found acc
    | pair t w =>
      cases w with
      | notAFloat =>
        simp [scanDocKeywords, hasBadWeight]
      | val v =>
        by_cases hmem : lowerStr t ∈ qset
        · simp only [scanDocKeywords, hasBadWeight, hasKwMatch, matchWeights,
            if_pos hmem]
          rw [ih true (max acc v)]
          simp [hasKwMatch, List.isEmpty, List.foldl]
        · simp only [scanDocKeywords, hasBadWeight, hasKwMatch, matchWeights,
            if_neg hmem]
          exact ih found acc

lemma docScore_eq (qset : List String) (d : Doc) :
    docScore qset d =
      if hasBadWeight d.keywords then Except.error ()
      else if titleMatches qset d.title || hasKwMatch qset d.keywords then
        Except.ok (some ((if titleMatches qset d.title then 1 else 0),
          if hasKwMatch qset d.keywords then
            List.foldl max 0 (matchWeights qset d.keywords)
          else 0))
      else Except.ok none := by
  unfold docScore
  rw [scanDocKeywords_eq]
  by_cases hb : hasBadWeight d.keywords
  · simp [hb]
  · simp only [hb, if_false, Bool.false_or]
    by_cases hk : titleMatches qset d.title || hasKwMatch qset d.keywords
    · simp only [hk, if_true]
      cases hm : hasKwMatch qset d.keywords with
      | true =>
        simp [hasKwMatch] at hm
        cases hw : matchWeights qset d.keywords with
        | nil => rw [hw] at hm; simp at hm
        | cons a l => simp
      | false =>
        rw [hm, Bool.or_false] at hk
        simp [hasKwMatch] at hm
        simp [hk, hm, List.foldl, hasKwMatch]
    · simp [hk]

lemma potentialMatches_append (qset : List String) :
    ∀ xs ys, potentialMatches qset (xs ++ ys)
      = potentialMatches qset xs ++ potentialMatches qset ys := by
  intro xs ys
  induction xs with
  | nil => simp [potentialMatches]
  | cons l rest ih =>
    cases l with
    | badJson => simpa [potentialMatches] using ih
    | doc d =>
      simp only [List.cons_append, potentialMatches]
      cases docScore qset d with
      | error e => exact ih
      | ok r =>
        cases r with
        | none => exact ih
        | some pw => simp [ih]

lemma mem_potentialMatches_of (qset : List String) {d : Doc} {p : Nat} {w : ℚ} :
    ∀ {lines : List IndexLine}, IndexLine.doc d ∈ lines →
      docScore qset d = Except.ok (some (p, w)) →
      (p, w, d) ∈ potentialMatches qset lines := by
  intro lines
  induction lines with
  | nil => intro h; exact absurd h (List.not_mem_nil _)
  | cons l rest ih =>
    intro hmem hscore
    rcases List.mem_cons.mp hmem with heq | htail
    · subst heq
      simp only [potentialMatches, hscore]
      exact List.mem_cons_self _ _
    · cases l with
      | badJson => simpa [potentialMatches] using ih htail hscore
      | doc d2 =>
        simp only [potentialMatches]
        cases docScore qset d2 with
        | error e => exact ih htail hscore
        | ok r =>
          cases r with
          | none => exact ih htail hscore
          | some pw => exact List.mem_cons_of_mem _ (ih htail hscore)

lemma potentialMatches_sound (qset : List String) :
    ∀ (lines : List IndexLine) (x : Nat × ℚ × Doc),
      x ∈ potentialMatches qset lines →
      docScore qset x.2.2 = Except.ok (some (x.1, x.2.1))
        ∧ IndexLine.doc x.2.2 ∈ lines := by
  intro lines
  induction lines with
  | nil => intro x h; exact absurd h (List.not_mem_nil _)
  | cons l rest ih =>
    intro x hx
    cases l with
    | badJson =>
      have := ih x (by simpa [potentialMatches] using hx)
      exact ⟨this.1, List.mem_cons_of_mem _ this.2⟩
    | doc d =>
      simp only [potentialMatches] at hx
      cases hscore : docScore qset d with
      | error e =>
        rw [hscore] at hx
        have := ih x hx
        exact ⟨this.1, List.mem_cons_of_mem _ this.2⟩
      | ok r =>
        rw [hscore] at hx
        cases r with
        | none =>
          have := ih x hx
          exact ⟨this.1, List.mem_cons_of_mem _ this.2⟩
        | some pw =>
          rcases List.mem_cons.mp hx with heq | htail
          · subst heq
            exact ⟨by simpa using hscore, List.mem_cons_self _ _⟩
          · have := ih x htail
            exact ⟨this.1, List.mem_cons_of_mem _ this.2⟩

/-! ## String and scanner lemmas -/

lemma strExt {s t : String} (h : s.data = t.data) : s = t := by
  cases s; cases t; exact congrArg String.mk h

lemma strApp_data (s t : String) : (s ++ t).data = s.data ++ t.data := by
  cases s; cases t; rfl

lemma dropPyWS_decomp (s : List Char) :
    ∃ w, s = w ++ dropPyWS s ∧ w.all isPyWS = true := by
  induction s with
  | nil => exact ⟨[], rfl, rfl⟩
  | cons c rest ih =>
    by_cases h : isPyWS c = true
    · rcases ih with ⟨w, hw, hall⟩
      refine ⟨c :: w, ?_, ?_⟩
      · simpa [dropPyWS, h] using congrArg (c :: ·) hw
      · simp [List.all_cons, h, hall]
    · exact ⟨[], by simp [dropPyWS, h], rfl⟩

lemma stripCI_decomp :
    ∀ (p s r : List Char), stripCI p s = some r →
      ∃ q, s = q ++ r ∧ q.map Char.toLower = p := by
  intro p
  induction p with
  | nil =>
    intro s r h
    simp [stripCI] at h
    exact ⟨[], by simp [h], rfl⟩
  | cons pc ps ih =>
    intro s r h
    cases s with
    | nil => simp [stripCI] at h
    | cons c cs =>
      by_cases hc : c.toLower = pc
      · simp only [stripCI, if_pos hc] at h
        rcases ih cs r h with ⟨q, hq, hmap⟩
        exact ⟨c :: q, by simp [hq], by simp [hmap, hc]⟩
      · simp [stripCI, hc] at h

lemma takeNonWS_decomp (s : List Char) :
    s = (takeNonWS s).1 ++ (takeNonWS s).2
      ∧ (takeNonWS s).1.all (fun c => !isPyWS c) = true := by
  induction s with
  | nil => exact ⟨rfl, rfl⟩
  | cons c rest ih =>
    by_cases h : isPyWS c = true
    · simp [takeNonWS, h]
    · refine ⟨?_, ?_⟩
      · simpa [takeNonWS, h] using congrArg (c :: ·) ih.1
      · simp [takeNonWS, h, List.all_cons, ih.2]

lemma toLower_not_ws {c : Char} (h : isPyWS (Char.toLower c) = false) :
    isPyWS c = false := by
  by_contra hc
  have hc' : isPyWS c = true := by
    cases h2 : isPyWS c with
    | true => rfl
    | false => exact absurd h2 hc
  have hfix : Char.toLower c = c := by
    simp only [isPyWS, Bool.or_eq_true, beq_iff_eq] at hc'
    rcases hc' with ((((h1 | h1) | h1) | h1) | h1) | h1 <;> subst h1 <;> decide
  rw [hfix] at h
  rw [h] at hc'
  exact absurd hc' (by simp)

lemma all_not_ws_of_map_toLower :
    ∀ (q pat : List Char), q.map Char.toLower = pat →
      pat.all (fun c => !isPyWS c) = true →
      q.all (fun c => !isPyWS c) = true := by
  intro q
  induction q with
  | nil => intro pat _ _; rfl
  | cons c q' ih =>
    intro pat hmap hall
    subst hmap
    simp only [List.map_cons, List.all_cons, Bool.and_eq_true, Bool.not_eq_true'] at hall ⊢
    exact ⟨toLower_not_ws hall.1, ih _ rfl (by simpa using hall.2)⟩

lemma take_len_append {α : Type} (l1 l2 : List α) :
    (l1 ++ l2).take l1.length = l1 := by
  induction l1 with
  | nil => rfl
  | cons a l ih => simp [List.take, ih]

lemma schemeAlt_sound (s3 s4 cap rest : List Char) (q1 : List Char)
    (hs : s3 = q1 ++ s4) (hq1l : q1.length = 4)
    (hq1 : q1.map Char.toLower = "http".data)
    (h : schemeAlt s3 s4 = some (cap, rest)) :
    s3 = cap ++ rest ∧ cap.all (fun c => !isPyWS c) = true
      ∧ (cap.map Char.toLower).take 7 = "http://".data := by
  unfold schemeAlt at h
  cases h2 : stripCI "://".data s4 with
  | none => rw [h2] at h; simp at h
  | some s5 =>
    rw [h2] at h
    dsimp only at h
    rcases stripCI_decomp _ _ _ h2 with ⟨q2, hs4, hq2⟩
    have hq2l : q2.length = 3 := by simpa using congrArg List.length hq2
    cases h3 : takeNonWS s5 with
    | mk run r =>
      rw [h3] at h
      cases run with
      | nil => simp at h
      | cons a run' =>
        simp only [Option.some.injEq, Prod.mk.injEq] at h
        obtain ⟨hcap, hrest⟩ := h
        have hdec := takeNonWS_decomp s5
        rw [h3] at hdec
        have hs5 : s5 = (a :: run') ++ r := hdec.1
        have hrun : (a :: run').all (fun c => !isPyWS c) = true := hdec.2
        have hs3 : s3 = (q1 ++ q2) ++ s5 := by rw [hs, hs4, List.append_assoc]
        have hlen : (7 : Nat) = (q1 ++ q2).length := by
          simp [List.length_append, hq1l, hq2l]
        have htake : s3.take 7 = q1 ++ q2 := by
          rw [hs3, hlen, take_len_append]
        subst hcap hrest
        refine ⟨?_, ?_, ?_⟩
        · rw [htake, hs3, hs5]
          simp [List.append_assoc]
        · rw [htake]
          simp only [List.all_append, Bool.and_eq_true]
          refine And.intro (And.intro ?_ ?_) hrun
          · exact all_not_ws_of_map_toLower _ _ hq1 (by decide)
          · exact all_not_ws_of_map_toLower _ _ hq2 (by decide)
        · rw [htake]
          have hmap : (q1 ++ q2).map Char.toLower = "http://".data := by
            rw [List.map_append, hq1, hq2]; rfl
          have hlen7 : (7 : Nat) = ((q1 ++ q2).map Char.toLower).length := by
            simp [List.length_append, hq1l, hq2l]
          rw [List.map_append, hlen7, take_len_append, hmap]

lemma schemeToken_sound (s3 cap rest : List Char)
    (h : schemeToken s3 = some (cap, rest)) :
    s3 = cap ++ rest ∧ cap.all (fun c => !isPyWS c) = true
      ∧ ((cap.map Char.toLower).take 7 = "http://".data
         ∨ (cap.map Char.toLower).take 8 = "https://".data) := by
  unfold schemeToken at h
  cases h1 : stripCI "http".data s3 with
  | none => rw [h1] at h; simp at h
  | some s4 =>
    rw [h1] at h
    dsimp only at h
    rcases stripCI_decomp _ _ _ h1 with ⟨q1, hs3, hq1⟩
    have hq1l : q1.length = 4 := by simpa using congrArg List.length hq1
    cases h2 : stripCI "s://".data s4 with
    | none =>
      rw [h2] at h
      dsimp only at h
      have := schemeAlt_sound s3 s4 cap rest q1 hs3 hq1l hq1 h
      exact ⟨this.1, this.2.1, Or.inl this.2.2⟩
    | some s5 =>
      rw [h2] at h
      dsimp only at h
      rcases stripCI_decomp _ _ _ h2 with ⟨q2, hs4, hq2⟩
      have hq2l : q2.length = 4 := by simpa using congrArg List.length hq2
      cases h3 : takeNonWS s5 with
      | mk run r =>
        rw [h3] at h
        cases run with
        | nil =>
          have := schemeAlt_sound s3 s4 cap rest q1 hs3 hq1l hq1 h
          exact ⟨this.1, this.2.1, Or.inl this.2.2⟩
        | cons a run' =>
          simp only [Option.some.injEq, Prod.mk.injEq] at h
          obtain ⟨hcap, hrest⟩ := h
          have hdec := takeNonWS_decomp s5
          rw [h3] at hdec
          have hs5 : s5 = (a :: run') ++ r := hdec.1
          have hrun : (a :: run').all (fun c => !isPyWS c) = true := hdec.2
          have hs3' : s3 = (q1 ++ q2) ++ s5 := by rw [hs3, hs4, List.append_assoc]
          have hlen : (8 : Nat) = (q1 ++ q2).length := by
            simp [List.length_append, hq1l, hq2l]
          have htake : s3.take 8 = q1 ++ q2 := by
            rw [hs3', hlen, take_len_append]
          subst hcap hrest
          refine ⟨?_, ?_, Or.inr ?_⟩
          · rw [htake, hs3', hs5]
            simp [List.append_assoc]
          · rw [htake]
            simp only [List.all_append, Bool.and_eq_true]
            refine And.intro (And.intro ?_ ?_) hrun
            · exact all_not_ws_of_map_toLower _ _ hq1 (by decide)
            · exact all_not_ws_of_map_toLower _ _ hq2 (by decide)
          · rw [htake]
            have hmap : (q1 ++ q2).map Char.toLower = "https://".data := by
              rw [List.map_append, hq1, hq2]; rfl
            have hlen8 : (8 : Nat) = ((q1 ++ q2).map Char.toLower).length := by
              simp [List.length_append, hq1l, hq2l]
            rw [List.map_append, hlen8, take_len_append, hmap]

lemma matchUrlAt_sound (s cap rest : List Char)
    (h : matchUrlAt s = some (cap, rest)) :
    ∃ w1 q w2, s = w1 ++ (q ++ (w2 ++ (cap ++ rest)))
      ∧ w1.all isPyWS = true ∧ q.map Char.toLower = "url:".data
      ∧ w2.all isPyWS = true
      ∧ cap.all (fun c => !isPyWS c) = true
      ∧ ((cap.map Char.toLower).take 7 = "http://".data
         ∨ (cap.map Char.toLower).take 8 = "https://".data) := by
  unfold matchUrlAt at h
  rcases dropPyWS_decomp s with ⟨w1, hs, hw1⟩
  cases h1 : stripCI "url:".data (dropPyWS s) with
  | none => rw [h1] at h; simp at h
  | some s2 =>
    rw [h1] at h
    dsimp only at h
    rcases stripCI_decomp _ _ _ h1 with ⟨q, hsplit, hq⟩
    rcases dropPyWS_decomp s2 with ⟨w2, hs2, hw2⟩
    have hst := schemeToken_sound _ _ _ h
    refine ⟨w1, q, w2, ?_, hw1, hq, hw2, hst.2.1, hst.2.2⟩
    rw [hs, hsplit, hs2, hst.1]

lemma scanForUrls_sound :
    ∀ (fuel : Nat) (s : List Char) (ls : Bool) (cap : List Char),
      cap ∈ scanForUrls fuel s ls →
      ∃ pre w1 q w2 rest,
        s = pre ++ (w1 ++ (q ++ (w2 ++ (cap ++ rest))))
        ∧ ((pre = [] ∧ ls = true) ∨ ∃ p1, pre = p1 ++ ['\n'])
        ∧ w1.all isPyWS = true ∧ q.map Char.toLower = "url:".data
        ∧ w2.all isPyWS = true
        ∧ cap.all (fun c => !isPyWS c) = true
        ∧ ((cap.map Char.toLower).take 7 = "http://".data
           ∨ (cap.map Char.toLower).take 8 = "https://".data) := by
  intro fuel
  induction fuel with
  | zero => intro s ls cap h; simp [scanForUrls] at h
  | succ fuel ih =>
    intro s ls cap h
    cases s with
    | nil => simp [scanForUrls] at h
    | cons c cs =>
      cases ls with
      | false =>
        simp only [scanForUrls, if_neg] at h
        rcases ih cs (c == '\n') cap (by simpa using h) with
          ⟨pre, w1, q, w2, rest, hdec, hpre, hrest⟩
        rcases hpre with ⟨hnil, hflag⟩ | ⟨p1, hp1⟩
        · subst hnil
          have hc : c = '\n' := eq_of_beq hflag
          refine ⟨[c], w1, q, w2, rest, by simp [hdec], Or.inr ⟨[], by simp [hc]⟩, hrest⟩
        · refine ⟨c :: pre, w1, q, w2, rest, by simp [hdec], Or.inr ⟨c :: p1, by simp [hp1]⟩, hrest⟩
      | true =>
        simp only [scanForUrls, if_pos] at h
        cases hm : matchUrlAt (c :: cs) with
        | none =>
          rw [hm] at h
          rcases ih cs (c == '\n') cap (by simpa using h) with
            ⟨pre, w1, q, w2, rest, hdec, hpre, hrest⟩
          rcases hpre with ⟨hnil, hflag⟩ | ⟨p1, hp1⟩
          · subst hnil
            have hc : c = '\n' := eq_of_beq hflag
            refine ⟨[c], w1, q, w2, rest, by simp [hdec], Or.inr ⟨[], by simp [hc]⟩, hrest⟩
          · refine ⟨c :: pre, w1, q, w2, rest, by simp [hdec], Or.inr ⟨c :: p1, by simp [hp1]⟩, hrest⟩
        | some ur =>
          rw [hm] at h
          cases ur with
          | mk u r =>
            dsimp only at h
            rcases List.mem_cons.mp h with hcap | htail
            · subst hcap
              rcases matchUrlAt_sound _ _ _ hm with ⟨w1, q, w2, hdec, hw1, hq, hw2, hcap, hsch⟩
              exact ⟨[], w1, q, w2, r, by simpa using hdec, Or.inl ⟨rfl, rfl⟩, hw1, hq, hw2, hcap, hsch⟩
            · rcases ih r false cap htail with
                ⟨pre, w1, q, w2, rest, hdec, hpre, hrest⟩
              rcases hpre with ⟨_, hflag⟩ | ⟨p1, hp1⟩
              · exact absurd hflag (by simp)
              · rcases matchUrlAt_sound _ _ _ hm with ⟨w1m, qm, w2m, hdecm, hw1m, hqm, hw2m, hcapm, hschm⟩
                refine ⟨w1m ++ (qm ++ (w2m ++ (u ++ pre))), w1, q, w2, rest, ?_, ?_, hrest⟩
                · rw [hdecm, hdec]
                  simp [List.append_assoc]
                · exact Or.inr ⟨w1m ++ (qm ++ (w2m ++ (u ++ p1))), by simp [hp1, List.append_assoc]⟩

lemma dropPyWS_of_all {l : List Char} (h : l.all (fun c => !isPyWS c) = true) :
    dropPyWS l = l := by
  cases l with
  | nil => rfl
  | cons c rest =>
    simp only [List.all_cons, Bool.and_eq_true, Bool.not_eq_true'] at h
    simp [dropPyWS, h.1]

lemma stripPy_of_all {l : List Char} (h : l.all (fun c => !isPyWS c) = true) :
    stripPy l = l := by
  unfold stripPy
  rw [dropPyWS_of_all h]
  rw [dropPyWS_of_all (by simpa using h)]
  exact List.reverse_reverse l

lemma parse_mem_sound (text u : String) (h : u ∈ parse_reranked_results text) :
    ∃ pre w1 q w2 rest,
      text.data = pre ++ (w1 ++ (q ++ (w2 ++ (u.data ++ rest))))
      ∧ (pre = [] ∨ ∃ p1, pre = p1 ++ ['\n'])
      ∧ w1.all isPyWS = true ∧ q.map Char.toLower = "url:".data
      ∧ w2.all isPyWS = true
      ∧ u.data.all (fun c => !isPyWS c) = true
      ∧ ((u.data.map Char.toLower).take 7 = "http://".data
         ∨ (u.data.map Char.toLower).take 8 = "https://".data) := by
  unfold parse_reranked_results at h
  rcases List.mem_map.mp h with ⟨cap, hcap, hu⟩
  rcases scanForUrls_sound _ _ _ _ hcap with
    ⟨pre, w1, q, w2, rest, hdec, hpre, hw1, hq, hw2, hcapws, hsch⟩
  have hu' : u.data = cap := by
    rw [← hu, stripPy_of_all hcapws]
  refine ⟨pre, w1, q, w2, rest, by rw [hu']; exact hdec, ?_,
    hw1, hq, hw2, by rw [hu']; exact hcapws, by rw [hu']; exact hsch⟩
  rcases hpre with ⟨hnil, _⟩ | hp1
  · exact Or.inl hnil
  · exact Or.inr hp1

/-! ## Assembler lemmas -/

lemma strApp_empty (s : String) : s ++ "" = s := by
  apply strExt
  rw [strApp_data]
  have he : "".data = [] := rfl
  rw [he, List.append_nil]

lemma strApp_assoc (a b c : String) : (a ++ b) ++ c = a ++ (b ++ c) := by
  apply strExt
  simp [strApp_data, List.append_assoc]

lemma strEmpty_app (s : String) : "" ++ s = s := by
  apply strExt
  rw [strApp_data]
  have he : "".data = [] := rfl
  rw [he, List.nil_append]

lemma strFoldlApp (l : List String) :
    ∀ a : String, List.foldl (fun r s => r ++ s) a l
      = a ++ List.foldl (fun r s => r ++ s) "" l := by
  induction l with
  | nil => intro a; simp [List.foldl, strApp_empty]
  | cons s l ih =>
    intro a
    simp only [List.foldl]
    rw [ih (a ++ s), ih ("" ++ s), strEmpty_app, strApp_assoc]

lemma strJoin_cons (s : String) (l : List String) :
    String.join (s :: l) = s ++ String.join l := by
  unfold String.join
  simp only [List.foldl]
  rw [strEmpty_app, strFoldlApp l s]

lemma assembleLoop_eq (pages : List Doc) :
    ∀ (us : List String) (acc : String) (n : Nat),
      assembleLoop pages us acc n
        = (acc ++ String.join (us.filterMap
            (fun u => (findDocByUrl pages u).map (docBlock u))),
           n + (us.filterMap (findDocByUrl pages)).length) := by
  intro us
  induction us with
  | nil =>
    intro acc n
    simp [assembleLoop, List.filterMap, String.join, List.foldl, strApp_empty]
  | cons u us ih =>
    intro acc n
    cases hf : findDocByUrl pages u with
    | none =>
      have hstep : assembleLoop pages (u :: us) acc n
          = assembleLoop pages us acc n := by
        simp [assembleLoop, hf]
      have hfm1 : List.filterMap (fun u => (findDocByUrl pages u).map (docBlock u)) (u :: us)
          = List.filterMap (fun u => (findDocByUrl pages u).map (docBlock u)) us := by
        simp [List.filterMap_cons, hf]
      have hfm2 : List.filterMap (findDocByUrl pages) (u :: us)
          = List.filterMap (findDocByUrl pages) us := by
        simp [List.filterMap_cons, hf]
      rw [hstep, ih, hfm1, hfm2]
    | some d =>
      have hstep : assembleLoop pages (u :: us) acc n
          = assembleLoop pages us (acc ++ docBlock u d) (n + 1) := by
        simp [assembleLoop, hf]
      have hfm1 : List.filterMap (fun u => (findDocByUrl pages u).map (docBlock u)) (u :: us)
          = docBlock u d :: List.filterMap (fun u => (findDocByUrl pages u).map (docBlock u)) us := by
        simp [List.filterMap_cons, hf]
      have hfm2 : List.filterMap (findDocByUrl pages) (u :: us)
          = d :: List.filterMap (findDocByUrl pages) us := by
        simp [List.filterMap_cons, hf]
      rw [hstep, ih, hfm1, hfm2, strJoin_cons, ← strApp_assoc]
      simp only [List.length_cons, Prod.mk.injEq]
      exact ⟨trivial, by omega⟩

lemma count_le_count_filterMap (f : String → Option String) (b u : String)
    (hf : f u = some b) :
    ∀ l : List String, l.count u ≤ (l.filterMap f).count b := by
  intro l
  induction l with
  | nil => simp
  | cons c l ih =>
    by_cases hc : c = u
    · subst hc
      rw [List.filterMap_cons, hf]
      simp only [List.count_cons, beq_self_eq_true, if_true]
      omega
    · rw [List.filterMap_cons]
      have hcount : (c :: l).count u = l.count u := by
        simp [List.count_cons, hc]
      rw [hcount]
      cases f c with
      | none => exact ih
      | some b' =>
        have hmono : (l.filterMap f).count b ≤ (b' :: l.filterMap f).count b := by
          simp only [List.count_cons]
          omega
        exact le_trans ih hmono

/-! ## Inversion and guard lemmas for search_documents -/

lemma docScore_ok_inv (qset : List String) (d : Doc) {p : Nat} {w : ℚ}
    (h : docScore qset d = Except.ok (some (p, w))) :
    p = (if titleMatches qset d.title then 1 else 0)
      ∧ w = List.foldl max 0 (matchWeights qset d.keywords) := by
  rw [docScore_eq] at h
  by_cases hb : hasBadWeight d.keywords = true
  · rw [if_pos hb] at h
    exact absurd h (by simp)
  · rw [if_neg hb] at h
    by_cases hk : (titleMatches qset d.title || hasKwMatch qset d.keywords) = true
    · rw [if_pos hk] at h
      have h2 : ((if titleMatches qset d.title then (1 : Nat) else 0),
          (if hasKwMatch qset d.keywords then
            List.foldl max 0 (matchWeights qset d.keywords) else (0 : ℚ))) = (p, w) := by
        simpa using h
      rw [Prod.mk.injEq] at h2
      refine ⟨h2.1.symm, ?_⟩
      by_cases hm : hasKwMatch qset d.keywords = true
      · rw [← h2.2, if_pos hm]
      · have hmf : hasKwMatch qset d.keywords = false := by
          cases hv : hasKwMatch qset d.keywords
          · rfl
          · exact absurd hv hm
        have hnil : matchWeights qset d.keywords = [] := by
          cases hw : matchWeights qset d.keywords with
          | nil => rfl
          | cons a l => rw [hasKwMatch, hw] at hmf; simp at hmf
        rw [← h2.2, if_neg hm, hnil]
        rfl
    · rw [if_neg hk] at h
      exact absurd h (by simp)

lemma search_documents_eq_nil (inp : SearchInput)
    (h : inp.fileExists = false ∨ inp.extractedKeywords = []
         ∨ queryKeywordSet inp = []) :
    search_documents inp = [] := by
  unfold search_documents
  rcases h with h | h | h
  · simp [h]
  · simp [h]
  · by_cases h1 : inp.fileExists = false
    · simp [h1]
    · by_cases h2 : inp.extractedKeywords = []
      · simp [h1, h2]
      · simp [h1, h2, h]

lemma search_documents_eq_of (inp : SearchInput)
    (h1 : inp.fileExists = true) (h2 : inp.extractedKeywords ≠ [])
    (h3 : queryKeywordSet inp ≠ []) :
    search_documents inp
      = (sortedMatches (queryKeywordSet inp) inp.lines).map (fun x => x.2.2) := by
  unfold search_documents
  simp [h1, h2, h3]

/-- Claim C1: for every query, the documents search_documents returns are
sorted descending by the tuple (titleMatch priority, effectiveWeight):
every returned document's recorded pair equals its docScore value, the
priority component is 1 exactly when some filtered query term whole-word
matches the lowercased title, the effective-weight component equals the
maximum (starting from 0) of the weights of the document's keyword entries
that equal a filtered query term, consecutive returned documents are
non-increasing in the descending lexicographic order on these pairs, and
every title-matching document precedes every non-title-matching one. -/
theorem search_documents_sorted_by_title_then_weight (inp : SearchInput) :
    (∀ d ∈ search_documents inp,
        docScore (queryKeywordSet inp) d
            = Except.ok (some (docRankOf (queryKeywordSet inp) d))
          ∧ ((docRankOf (queryKeywordSet inp) d).1 = 1
              ↔ titleMatches (queryKeywordSet inp) d.title = true)
          ∧ (docRankOf (queryKeywordSet inp) d).2
              = List.foldl max 0 (matchWeights (queryKeywordSet inp) d.keywords))
    ∧ List.Pairwise (fun d1 d2 =>
        (docRankOf (queryKeywordSet inp) d2).1 < (docRankOf (queryKeywordSet inp) d1).1
        ∨ ((docRankOf (queryKeywordSet inp) d1).1 = (docRankOf (queryKeywordSet inp) d2).1
            ∧ (docRankOf (queryKeywordSet inp) d2).2 ≤ (docRankOf (queryKeywordSet inp) d1).2))
        (search_documents inp)
    ∧ List.Pairwise (fun d1 d2 =>
        titleMatches (queryKeywordSet inp) d2.title = true →
          titleMatches (queryKeywordSet inp) d1.title = true)
        (search_documents inp) := by
  by_cases h1 : inp.fileExists = true
  · by_cases h2 : inp.extractedKeywords = []
    · rw [search_documents_eq_nil inp (Or.inr (Or.inl h2))]
      simp
    · by_cases h3 : queryKeywordSet inp = []
      · rw [search_documents_eq_nil inp (Or.inr (Or.inr h3))]
        simp
      · rw [search_documents_eq_of inp h1 h2 h3]
        have hperm := List.perm_insertionSort rankDescLE
          (potentialMatches (queryKeywordSet inp) inp.lines)
        have hsorted := List.sorted_insertionSort rankDescLE
          (potentialMatches (queryKeywordSet inp) inp.lines)
        have hkey : ∀ x ∈ sortedMatches (queryKeywordSet inp) inp.lines,
            docScore (queryKeywordSet inp) x.2.2 = Except.ok (some (x.1, x.2.1)) := by
          intro x hx
          have hxpm : x ∈ potentialMatches (queryKeywordSet inp) inp.lines :=
            (List.Perm.mem_iff hperm).mp hx
          exact (potentialMatches_sound (queryKeywordSet inp) inp.lines x hxpm).1
        have hrank : ∀ x ∈ sortedMatches (queryKeywordSet inp) inp.lines,
            docRankOf (queryKeywordSet inp) x.2.2 = (x.1, x.2.1) := by
          intro x hx
          unfold docRankOf
          rw [hkey x hx]
        refine ⟨?_, ?_, ?_⟩
        · intro d hd
          rcases List.mem_map.mp hd with ⟨x, hx, hxd⟩
          subst hxd
          have hds := hkey x hx
          have hdr := hrank x hx
          rw [hdr]
          have hinv := docScore_ok_inv (queryKeywordSet inp) x.2.2 hds
          refine ⟨hds, ?_, hinv.2⟩
          by_cases ht : titleMatches (queryKeywordSet inp) x.2.2.title = true
          · have hp := hinv.1
            rw [ht] at hp
            simp only [if_true] at hp
            simp [ht, hp]
          · have htf : titleMatches (queryKeywordSet inp) x.2.2.title = false := by
              cases hv : titleMatches (queryKeywordSet inp) x.2.2.title
              · rfl
              · exact absurd hv ht
            have hp := hinv.1
            rw [htf] at hp
            simp only [Bool.false_eq_true, if_false] at hp
            simp [htf, hp]
        · rw [List.pairwise_map]
          refine List.Pairwise.imp_of_mem ?_ hsorted
          intro a b ha hb hab
          rw [hrank a ha, hrank b hb]
          exact hab
        · rw [List.pairwise_map]
          refine List.Pairwise.imp_of_mem ?_ hsorted
          intro a b ha hb hab htb
          have hpa := (docScore_ok_inv (queryKeywordSet inp) a.2.2 (hkey a ha)).1
          have hpb := (docScore_ok_inv (queryKeywordSet inp) b.2.2 (hkey b hb)).1
          rw [htb] at hpb
          simp only [if_true] at hpb
          by_cases hta : titleMatches (queryKeywordSet inp) a.2.2.title = true
          · exact hta
          · have htaf : titleMatches (queryKeywordSet inp) a.2.2.title = false := by
              cases hv : titleMatches (queryKeywordSet inp) a.2.2.title
              · rfl
              · exact absurd hv hta
            rw [htaf] at hpa
            simp only [Bool.false_eq_true, if_false] at hpa
            rcases hab with hlt | ⟨heq, _⟩
            · rw [hpa, hpb] at hlt
              omega
            · rw [hpa, hpb] at heq
              omega
  · have h1' : inp.fileExists = false := by
      cases hf : inp.fileExists
      · rfl
      · exact absurd hf h1
    rw [search_documents_eq_nil inp (Or.inl h1')]
    simp

/-- Witness for claim C1 at the sample input: in the returned list, every
title-matching document precedes every non-title-matching one. -/
theorem search_documents_sorted_witness :
    List.Pairwise (fun d1 d2 =>
        titleMatches (queryKeywordSet sampleInput) d2.title = true →
          titleMatches (queryKeywordSet sampleInput) d1.title = true)
        (search_documents sampleInput) :=
  (search_documents_sorted_by_title_then_weight sampleInput).2.2

/-- Claim C3: for every query whose filtered keyword set is empty,
search_documents returns the empty list (and, being a total function,
cannot raise); it likewise returns the empty list when the index file is
missing. -/
theorem search_documents_empty_on_empty_keywords_or_missing_file
    (inp : SearchInput) :
    (queryKeywordSet inp = [] → search_documents inp = [])
    ∧ (inp.fileExists = false → search_documents inp = []) :=
  ⟨fun h => search_documents_eq_nil inp (Or.inr (Or.inr h)),
   fun h => search_documents_eq_nil inp (Or.inl h)⟩

/-- Witness for claim C3: a query made only of stop-words yields an empty
result, and so does a missing index file. -/
theorem search_documents_empty_witness :
    search_documents stopWordInput = [] ∧ search_documents missingFileInput = [] :=
  ⟨(search_documents_empty_on_empty_keywords_or_missing_file stopWordInput).1
      (by decide),
   (search_documents_empty_on_empty_keywords_or_missing_file missingFileInput).2
      (by decide)⟩

/-- Claim C4: if some filtered query term occurs as a whole word in the
lowercased title of an indexed document whose keyword entries all carry
float-convertible weights, the document is included in the result. -/
theorem title_whole_word_match_included (inp : SearchInput) (d : Doc)
    (hfile : inp.fileExists = true)
    (hline : IndexLine.doc d ∈ inp.lines)
    (hgood : hasBadWeight d.keywords = false)
    (hkw : ∃ kw ∈ queryKeywordSet inp,
        hasWholeWord kw.data (lowerStr d.title).data = true) :
    d ∈ search_documents inp := by
  have htm : titleMatches (queryKeywordSet inp) d.title = true := by
    rcases hkw with ⟨kw, hmem, hww⟩
    exact List.any_eq_true.mpr ⟨kw, hmem, hww⟩
  have h3 : queryKeywordSet inp ≠ [] := by
    rcases hkw with ⟨kw, hmem, _⟩
    intro hnil
    rw [hnil] at hmem
    exact List.not_mem_nil kw hmem
  have h2 : inp.extractedKeywords ≠ [] := by
    intro hnil
    apply h3
    unfold queryKeywordSet
    rw [hnil]
    rfl
  obtain ⟨w, hscore⟩ : ∃ w, docScore (queryKeywordSet inp) d
      = Except.ok (some (1, w)) := by
    refine ⟨(if hasKwMatch (queryKeywordSet inp) d.keywords then
      List.foldl max 0 (matchWeights (queryKeywordSet inp) d.keywords) else 0), ?_⟩
    rw [docScore_eq]
    rw [if_neg (show ¬hasBadWeight d.keywords = true by simp [hgood])]
    rw [if_pos (show (titleMatches (queryKeywordSet inp) d.title
      || hasKwMatch (queryKeywordSet inp) d.keywords) = true by simp [htm])]
    rw [if_pos (show titleMatches (queryKeywordSet inp) d.title = true from htm)]
  have hpm : (1, w, d) ∈ potentialMatches (queryKeywordSet inp) inp.lines :=
    mem_potentialMatches_of (queryKeywordSet inp) hline hscore
  rw [search_documents_eq_of inp hfile h2 h3]
  refine List.mem_map.mpr ⟨(1, w, d), ?_, rfl⟩
  unfold sortedMatches
  exact (List.Perm.mem_iff (List.perm_insertionSort rankDescLE _)).mpr hpm

/-- Witness for claim C4: the goblin query includes the Goblin Camp page. -/
theorem title_whole_word_match_included_witness :
    goblinDoc ∈ search_documents sampleInput :=
  title_whole_word_match_included sampleInput goblinDoc (by decide) (by decide)
    (by decide) ⟨"goblin", by decide, by decide⟩

lemma assembleLoop_none (pages : List Doc) :
    ∀ (us : List String) (acc : String) (n : Nat),
      (∀ u ∈ us, findDocByUrl pages u = none) →
      assembleLoop pages us acc n = (acc, n) := by
  intro us
  induction us with
  | nil => intro acc n _; rfl
  | cons u us ih =>
    intro acc n h
    have hf : findDocByUrl pages u = none := h u (List.mem_cons_self _ _)
    have hrest : ∀ v ∈ us, findDocByUrl pages v = none :=
      fun v hv => h v (List.mem_cons_of_mem _ hv)
    simp only [assembleLoop, hf]
    exact ih acc n hrest

/-- Counterexample to claim C7 as stated: the only indexed document of
badWeightInput matches the query both by title and by a well-formed
keyword entry, yet search_documents returns nothing because one other
keyword entry of that document has an inconvertible weight, so the whole
document (not just the entry) is dropped; removing the bad entry makes the
same document come back. -/
theorem malformed_entry_drops_document_counterexample :
    search_documents badWeightInput = []
    ∧ titleMatches (queryKeywordSet badWeightInput) badWeightDoc.title = true
    ∧ search_documents goodWeightInput = [goblinDoc] :=
  ⟨by decide, by decide, by decide⟩

/-- Claim C7 amended: a keyword entry of the wrong shape is skipped
silently and the document is still considered; an entry whose weight float
cannot convert raises ValueError or TypeError, and the exception is caught
at the granularity of the whole index line, so that single document is
skipped (with a warning) while the rest of the request proceeds. -/
theorem malformed_entry_granularity (qset : List String) (d : Doc)
    (l1 l2 : List IndexLine) :
    (∀ (found : Bool) (acc : ℚ) (rest : List KwEntry),
        scanDocKeywords qset found acc (KwEntry.wrongShape :: rest)
          = scanDocKeywords qset found acc rest)
    ∧ (hasBadWeight d.keywords = true → docScore qset d = Except.error ())
    ∧ (docScore qset d = Except.error () →
        potentialMatches qset (l1 ++ IndexLine.doc d :: l2)
          = potentialMatches qset (l1 ++ l2)) := by
  refine ⟨fun found acc rest => rfl, ?_, ?_⟩
  · intro hb
    rw [docScore_eq, if_pos hb]
  · intro herr
    rw [potentialMatches_append, potentialMatches_append]
    congr 1
    simp [potentialMatches, herr]

/-- Witness for claim C7 amended at the bad-weight sample document. -/
theorem malformed_entry_granularity_witness :
    docScore (queryKeywordSet badWeightInput) badWeightDoc = Except.error ()
    ∧ potentialMatches (queryKeywordSet badWeightInput)
        ([] ++ IndexLine.doc badWeightDoc :: [])
        = potentialMatches (queryKeywordSet badWeightInput) ([] ++ []) := by
  have h := malformed_entry_granularity (queryKeywordSet badWeightInput)
    badWeightDoc [] []
  have herr := h.2.1 (by decide)
  exact ⟨herr, h.2.2 herr⟩

/-- Claim C8: format_chat_history_snippet, called with the fixed turn
count of four, reports the fixed no-prior-conversation string on an empty
history (as after a session reset), and otherwise renders the header
followed by one formatted line per turn for exactly the last at-most-four
turns of the history. -/
theorem history_snippet_last_turns (history : List ChatContent) :
    format_chat_history_snippet [] NUM_HISTORY_TURNS_FOR_GUIDANCE
        = "No prior conversation history."
    ∧ (history ≠ [] →
        format_chat_history_snippet history NUM_HISTORY_TURNS_FOR_GUIDANCE
          = "Recent Conversation Snippet:\n"
            ++ String.join
                ((lastTurns history NUM_HISTORY_TURNS_FOR_GUIDANCE).map turnLine))
    ∧ lastTurns history NUM_HISTORY_TURNS_FOR_GUIDANCE
        = history.drop (history.length - NUM_HISTORY_TURNS_FOR_GUIDANCE)
    ∧ (lastTurns history NUM_HISTORY_TURNS_FOR_GUIDANCE).length
        ≤ NUM_HISTORY_TURNS_FOR_GUIDANCE := by
  refine ⟨rfl, ?_, ?_, ?_⟩
  · intro h
    unfold format_chat_history_snippet
    rw [if_neg h]
  · unfold lastTurns
    rw [if_neg (by decide : ¬(NUM_HISTORY_TURNS_FOR_GUIDANCE = 0))]
  · unfold lastTurns
    rw [if_neg (by decide : ¬(NUM_HISTORY_TURNS_FOR_GUIDANCE = 0))]
    rw [List.length_drop]
    omega

/-- Witness for claim C8 at the five-turn sample history. -/
theorem history_snippet_last_turns_witness :
    format_chat_history_snippet sampleHistory NUM_HISTORY_TURNS_FOR_GUIDANCE
      = "Recent Conversation Snippet:\n"
        ++ String.join
            ((lastTurns sampleHistory NUM_HISTORY_TURNS_FOR_GUIDANCE).map turnLine) :=
  (history_snippet_last_turns sampleHistory).2.1 (by decide)

/-- Claim C6: get_content_for_answering walks at most the first three
reference urls (its result only depends on that prefix), resolves each
reference by exact url equality with the first matching candidate winning,
returns the fixed non-empty no-reranked sentinel on an empty reference
list, and the fixed non-empty no-content sentinel when no walked reference
resolves. -/
theorem context_assembly_cap_and_sentinels (urls : List String)
    (pages : List Doc) :
    get_content_for_answering [] pages = NO_RERANKED_SENTINEL
    ∧ NO_RERANKED_SENTINEL ≠ "" ∧ NO_CONTENT_SENTINEL ≠ ""
    ∧ get_content_for_answering urls pages
        = get_content_for_answering (urls.take MAX_PAGES_FOR_ANSWERING) pages
    ∧ (∀ (u : String) (d : Doc), findDocByUrl pages u = some d
        → d ∈ pages ∧ d.url = u)
    ∧ (∀ (u : String) (d : Doc) (ps : List Doc), d.url = u →
          findDocByUrl (d :: ps) u = some d)
    ∧ ((urls ≠ [] ∧ ∀ u ∈ urls.take MAX_PAGES_FOR_ANSWERING,
          findDocByUrl pages u = none) →
        get_content_for_answering urls pages = NO_CONTENT_SENTINEL) := by
  refine ⟨rfl, by decide, by decide, ?_, ?_, ?_, ?_⟩
  · by_cases h : urls = []
    · subst h; rfl
    · have hne : urls.take MAX_PAGES_FOR_ANSWERING ≠ [] := by
        cases urls with
        | nil => exact absurd rfl h
        | cons a us => simp [MAX_PAGES_FOR_ANSWERING]
      unfold get_content_for_answering
      rw [if_neg h, if_neg hne, List.take_take, Nat.min_self]
  · intro u d hf
    unfold findDocByUrl at hf
    refine ⟨List.mem_of_find?_eq_some hf, ?_⟩
    have := List.find?_some hf
    simpa using this
  · intro u d ps hdu
    unfold findDocByUrl
    exact List.find?_cons_of_pos _ (by simp [hdu])
  · rintro ⟨hne, hnone⟩
    unfold get_content_for_answering
    rw [if_neg hne]
    rw [assembleLoop_none pages _ "" 0 hnone]
    rfl

/-- Witness for claim C6: the empty reference list and a fully
unresolvable reference list each yield their sentinel. -/
theorem context_assembly_cap_and_sentinels_witness :
    get_content_for_answering [] [goblinDoc] = NO_RERANKED_SENTINEL
    ∧ get_content_for_answering ["https://nope/x"] [goblinDoc]
        = NO_CONTENT_SENTINEL := by
  have h := context_assembly_cap_and_sentinels ["https://nope/x"] [goblinDoc]
  exact ⟨(context_assembly_cap_and_sentinels [] [goblinDoc]).1,
    h.2.2.2.2.2.2 ⟨by decide, by decide⟩⟩

/-- Claim C10: the assembler does no de-duplication: a resolvable url
appearing at least twice among the first three reference entries
contributes its document's labeled block at least that often, the
assembled context is exactly the concatenation of the per-occurrence
blocks, and only the first three entries ever contribute blocks. -/
theorem context_assembly_no_dedup (urls : List String) (pages : List Doc)
    (u : String) (d : Doc)
    (hres : findDocByUrl pages u = some d)
    (hcount : 2 ≤ (urls.take MAX_PAGES_FOR_ANSWERING).count u) :
    2 ≤ (resolvedBlocks urls pages).count (docBlock u d)
    ∧ get_content_for_answering urls pages
        = String.join (resolvedBlocks urls pages)
    ∧ resolvedBlocks urls pages
        = resolvedBlocks (urls.take MAX_PAGES_FOR_ANSWERING) pages := by
  have hfu : (fun v => (findDocByUrl pages v).map (docBlock v)) u
      = some (docBlock u d) := by
    simp [hres]
  have hmemu : u ∈ urls.take MAX_PAGES_FOR_ANSWERING := by
    have : 0 < (urls.take MAX_PAGES_FOR_ANSWERING).count u := by omega
    exact List.count_pos_iff.mp this
  have hne : urls ≠ [] := by
    intro hnil
    rw [hnil] at hmemu
    simp at hmemu
  refine ⟨?_, ?_, ?_⟩
  · have := count_le_count_filterMap
      (fun v => (findDocByUrl pages v).map (docBlock v)) (docBlock u d) u hfu
      (urls.take MAX_PAGES_FOR_ANSWERING)
    unfold resolvedBlocks
    omega
  · unfold get_content_for_answering
    rw [if_neg hne]
    rw [assembleLoop_eq pages (urls.take MAX_PAGES_FOR_ANSWERING) "" 0]
    have hlen : 0 < ((urls.take MAX_PAGES_FOR_ANSWERING).filterMap
        (findDocByUrl pages)).length := by
      have hdm : d ∈ (urls.take MAX_PAGES_FOR_ANSWERING).filterMap
          (findDocByUrl pages) :=
        List.mem_filterMap.mpr ⟨u, hmemu, hres⟩
      exact List.length_pos.mpr (List.ne_nil_of_mem hdm)
    have hne2 : ¬(0 + ((urls.take MAX_PAGES_FOR_ANSWERING).filterMap
        (findDocByUrl pages)).length = 0) := by omega
    simp only [hne2, if_false]
    unfold resolvedBlocks
    exact strEmpty_app _
  · unfold resolvedBlocks
    rw [List.take_take, Nat.min_self]

/-- Witness for claim C10: a reference list repeating the goblin url three
times and then naming the druid url produces three copies of the goblin
block and, the cap being three, no druid block. -/
theorem context_assembly_no_dedup_witness :
    2 ≤ (resolvedBlocks
          [goblinDoc.url, goblinDoc.url, goblinDoc.url, druidDoc.url]
          [goblinDoc, druidDoc]).count (docBlock goblinDoc.url goblinDoc)
    ∧ get_content_for_answering
        [goblinDoc.url, goblinDoc.url, goblinDoc.url, druidDoc.url]
        [goblinDoc, druidDoc]
      = String.join (resolvedBlocks
          [goblinDoc.url, goblinDoc.url, goblinDoc.url, druidDoc.url]
          [goblinDoc, druidDoc])
    ∧ (resolvedBlocks
          [goblinDoc.url, goblinDoc.url, goblinDoc.url, druidDoc.url]
          [goblinDoc, druidDoc]).count (docBlock druidDoc.url druidDoc) = 0 := by
  have h := context_assembly_no_dedup
    [goblinDoc.url, goblinDoc.url, goblinDoc.url, druidDoc.url]
    [goblinDoc, druidDoc] goblinDoc.url goblinDoc (by decide) (by decide)
  exact ⟨h.1, h.2.1, by decide⟩

/-- Counterexample to claim C2 as stated: parse_reranked_results extracts
whatever well-formed URL line the model response contains, with no check
against the candidate list, so a response naming a url absent from the
candidates is returned by the rerank parsing step. -/
theorem rerank_url_outside_candidates_counterexample :
    parse_reranked_results "1. Title: T\n   URL: http://evil.example/x"
      = ["http://evil.example/x"]
    ∧ ¬("http://evil.example/x" ∈ List.map Doc.url [goblinDoc, druidDoc]) :=
  ⟨by decide, by decide⟩

/-- Claim C2 amended: the rerank parsing itself does not validate the
extracted urls against the candidates, but every document the pipeline
then resolves from the reranked urls during context assembly belongs to
the candidate list, so a url outside the candidates is dropped there. -/
theorem reranked_resolution_stays_in_candidates (text : String)
    (pages : List Doc) (d : Doc)
    (h : d ∈ resolvedDocs (parse_reranked_results text) pages) :
    d ∈ pages := by
  unfold resolvedDocs at h
  rcases List.mem_filterMap.mp h with ⟨u, _, hf⟩
  unfold findDocByUrl at hf
  exact List.mem_of_find?_eq_some hf

/-- Witness for claim C2 amended: resolving the goblin url lands on a
candidate document. -/
theorem reranked_resolution_stays_in_candidates_witness :
    goblinDoc ∈ [goblinDoc, druidDoc] :=
  reranked_resolution_stays_in_candidates
    "URL: https://bg3.wiki/wiki/Goblin_Camp" [goblinDoc, druidDoc] goblinDoc
    (by decide)

/-- Counterexample to claim C5 as stated: with the colon at the end of one
line and the url alone on the next, no single line matches the full
pattern, yet the MULTILINE regex in the source matches across the line
break (its whitespace class includes newlines) and the parser returns the
url. -/
theorem parse_line_extraction_counterexample :
    parse_reranked_results "URL:\nhttp://x" = ["http://x"]
    ∧ specLineExtract "URL:\nhttp://x" = [] :=
  ⟨by decide, by decide⟩

/-- Claim C5 amended: every url the parser returns is captured at a
line-start occurrence of optional whitespace, then URL with the required
colon (case-insensitive), then whitespace that may include line breaks,
then the url token; a line whose colon is missing (URL http://x)
contributes nothing, while the well-formed line of the same response is
still extracted. -/
theorem parse_requires_url_colon_marker (text u : String)
    (h : u ∈ parse_reranked_results text) :
    (∃ pre w1 q w2 rest,
      text.data = pre ++ (w1 ++ (q ++ (w2 ++ (u.data ++ rest))))
      ∧ (pre = [] ∨ ∃ p1, pre = p1 ++ ['\n'])
      ∧ w1.all isPyWS = true
      ∧ q.map Char.toLower = "url:".data
      ∧ w2.all isPyWS = true)
    ∧ parse_reranked_results "1. Title: T\n   URL: http://a\nURL http://x"
        = ["http://a"] := by
  rcases parse_mem_sound text u h with
    ⟨pre, w1, q, w2, rest, hdec, hpre, hw1, hq, hw2, _, _⟩
  exact ⟨⟨pre, w1, q, w2, rest, hdec, hpre, hw1, hq, hw2⟩, by decide⟩

/-- Witness for claim C5 amended at a one-line response. -/
theorem parse_requires_url_colon_marker_witness :
    parse_reranked_results "1. Title: T\n   URL: http://a\nURL http://x"
      = ["http://a"] :=
  (parse_requires_url_colon_marker "URL: http://a" "http://a" (by decide)).2

/-- Counterexample to claim C9 as stated: the regex is compiled with
IGNORECASE, which also applies to the scheme literal, so an uppercase
scheme is captured verbatim and the returned string does not begin with
the literal http:// or https://. -/
theorem parse_scheme_case_counterexample :
    parse_reranked_results "URL: HTTP://x" = ["HTTP://x"]
    ∧ ¬("HTTP://x".data.take 7 = "http://".data
        ∨ "HTTP://x".data.take 8 = "https://".data) :=
  ⟨by decide, by decide⟩

/-- Claim C9 amended: every string the parser returns begins
case-insensitively with http:// or https:// (its lowercased form carries
that prefix) and contains no whitespace, and the captures are collected
left to right, so occurrence order and duplicates are preserved, as the
concrete response with a duplicated url shows. -/
theorem parse_results_scheme_and_order (text u : String)
    (h : u ∈ parse_reranked_results text) :
    ((u.data.map Char.toLower).take 7 = "http://".data
      ∨ (u.data.map Char.toLower).take 8 = "https://".data)
    ∧ u.data.all (fun c => !isPyWS c) = true
    ∧ parse_reranked_results "URL: http://b\nURL: http://a\nURL: http://b"
        = ["http://b", "http://a", "http://b"] := by
  rcases parse_mem_sound text u h with
    ⟨_, _, _, _, _, _, _, _, _, _, hws, hsch⟩
  exact ⟨hsch, hws, by decide⟩

/-- Witness for claim C9 amended at a one-line response. -/
theorem parse_results_scheme_and_order_witness :
    ("http://a".data.map Char.toLower).take 7 = "http://".data
      ∨ ("http://a".data.map Char.toLower).take 8 = "https://".data :=
  (parse_results_scheme_and_order "URL: http://a" "http://a" (by decide)).1
